import Mathlib

/-!
Verification of the LATS tree-search core (`agential/cog/lats`).

A shallow embedding of the Language Agent Tree Search (LATS) functional core:
the node data model, UCT selection, backpropagation, rollout, node evaluation,
deduplicated child generation and failed-trajectory bookkeeping, together with
theorems settling the specified properties.

The Python object graph (nodes with mutable `parent` / `children` pointers) is
embedded as an arena: a `List LNode` indexed by natural numbers, with
`parent : Option Nat` and `children : List Nat` as indices.  Floats are
embedded as rationals (`ℚ`); the UCT score, which uses `sqrt` and `log`, is
embedded over the reals.  LLM calls and the code-execution / answer-checking
oracles are external collaborators and enter as function parameters.
Unbounded `while` loops are given explicit fuel; `none` marks fuel exhaustion
(modelling non-termination of the source loop).
-/

/-- The loosely-typed per-step state dict of the source `Node`
(`state['thought']`, `state['action']`, `state['observation']`). -/
structure LState where
  thought : String
  action : String
  observation : String
deriving DecidableEq

instance : Inhabited LState := ⟨⟨"", "", ""⟩⟩

/-- One tree node of the LATS search tree (`Node` in
`agential/cog/lats/functional.py`), arena-embedded: `parent` and `children`
are indices into the node list. -/
structure LNode where
  state : LState
  question : String
  parent : Option Nat
  children : List Nat
  visits : Nat
  value : ℚ
  depth : Nat
  is_terminal : Bool
  reward : ℚ
deriving DecidableEq

instance : Inhabited LNode :=
  ⟨⟨default, "", none, [], 0, 0, 0, false, 0⟩⟩

/-- Attribute access `node.<field>` on the arena: fetch the node stored at
index `i` (a default node if out of range; theorems carry range side
conditions). -/
def getN (t : List LNode) (i : Nat) : LNode := t.getD i default

/-- The chain of node indices from `cur` following `parent` links, with
explicit fuel (the source walks `while node: ...; node = node.parent`). -/
def pathAux (t : List LNode) : Nat → Option Nat → List Nat
  | 0, _ => []
  | _ + 1, none => []
  | fuel + 1, some i => i :: pathAux t fuel (getN t i).parent

/-- The path of node indices from node `i` up to the root.  Fuel `i + 1`
suffices on well-formed arenas, where parent indices strictly decrease. -/
def pathToRoot (t : List LNode) (i : Nat) : List Nat :=
  pathAux t (i + 1) (some i)

/-- Source `upward_traversal(node)`: collect the nodes from `node` to the root and
reverse, so the root comes first. -/
def upward_traversal (t : List LNode) (i : Nat) : List Nat :=
  (pathToRoot t i).reverse

/-- The scratchpad lines contributed by one node in `generate_prompt`:
`Thought d: ...`, `Action d: ...`, `Observation d: ...`, each only when the
corresponding state field is non-empty, and nothing for depth-0 nodes. -/
def nodeLines (n : LNode) : List String :=
  if n.depth > 0 then
    (if n.state.thought ≠ "" then
      ["Thought " ++ toString n.depth ++ ": " ++ n.state.thought] else []) ++
    (if n.state.action ≠ "" then
      ["Action " ++ toString n.depth ++ ": " ++ n.state.action] else []) ++
    (if n.state.observation ≠ "" then
      ["Observation " ++ toString n.depth ++ ": " ++ n.state.observation] else [])
  else []

/-- Source `generate_prompt(traversed_nodes)` over node values: join all per-node
lines with newlines. -/
def generate_prompt_nodes (ns : List LNode) : String :=
  String.intercalate "\n" (ns.map nodeLines).flatten

/-- Source `generate_prompt` applied to arena indices. -/
def generate_prompt (t : List LNode) (idxs : List Nat) : String :=
  generate_prompt_nodes (idxs.map (getN t))

/-- Well-formed arena: every stored parent link points to a strictly smaller
index (nodes are appended after their parents), so parent chains are acyclic
and reach a root. -/
def ParentLT (t : List LNode) : Prop :=
  ∀ j, j < t.length → ∀ p, (getN t j).parent = some p → p < j

/-- The per-node update performed by one `backpropagate` pass carrying
simulation reward `v`: increment `visits`, then blend `value` with the
increment, which is `-1` for a terminal node with `reward == 0` and `v`
otherwise: `value = (value * (visits - 1) + inc) / visits`. -/
def backpropStep (v : ℚ) (n : LNode) : LNode :=
  let visits' := n.visits + 1
  let inc : ℚ := if n.is_terminal = true ∧ n.reward = 0 then -1 else v
  { n with visits := visits',
           value := (n.value * ((visits' : ℚ) - 1) + inc) / (visits' : ℚ) }

/-- The increment a backpropagation pass with simulation reward `v`
contributes at node `n` (the reward-mapping rule: terminal with
`reward == 0` maps to `-1`). -/
def bpIncrement (n : LNode) (v : ℚ) : ℚ :=
  if n.is_terminal = true ∧ n.reward = 0 then -1 else v

/-- The `while node:` loop of `backpropagate`, walking parent links with
explicit fuel. -/
def backpropAux (v : ℚ) : Nat → List LNode → Option Nat → List LNode
  | 0, t, _ => t
  | _ + 1, t, none => t
  | fuel + 1, t, some i =>
      backpropAux v fuel (t.set i (backpropStep v (getN t i))) (getN t i).parent

/-- Source `backpropagate(node, value)`: walk from node `i` to the root applying
`backpropStep` at every node on the path.  Fuel `i + 1` covers the whole
parent chain on well-formed arenas. -/
def backpropagate (t : List LNode) (i : Nat) (v : ℚ) : List LNode :=
  backpropAux v (i + 1) t (some i)

/-- A sequence of backpropagation passes, each given by a start node and a
simulation reward. -/
def backpropMany (t : List LNode) (passes : List (Nat × ℚ)) : List LNode :=
  passes.foldl (fun s p => backpropagate s p.1 p.2) t

/-- Source `Node.uct`: `value` alone when `visits == 0`, otherwise
`value / visits + sqrt(2 * log(parent.visits) / visits)`.  The source only
ever calls `uct` on nodes that have a parent; for a parentless node the
parent-visit count falls back to node `0`'s. -/
noncomputable def uct (t : List LNode) (i : Nat) : ℝ :=
  let n := getN t i
  if n.visits = 0 then (n.value : ℝ)
  else (n.value : ℝ) / (n.visits : ℝ) +
    Real.sqrt (2 * Real.log ((getN t (n.parent.getD 0)).visits : ℝ) / (n.visits : ℝ))

/-- The left fold of Python's `max(xs, key=score)`: replace the current best
only on a strictly greater score, so the first element attaining the maximum
wins. -/
def pyMaxFold {α : Type} [LinearOrder α] (score : Nat → α) (b : Nat) (xs : List Nat) : Nat :=
  xs.foldl (fun b y => if score b < score y then y else b) b

/-- Python's `max(xs, key=score, default=None)`. -/
def maxByFirst {α : Type} [LinearOrder α] (score : Nat → α) : List Nat → Option Nat
  | [] => none
  | x :: xs => some (pyMaxFold score x xs)

/-- Source `node.parent.children.remove(node)`: drop the first occurrence of child
index `c` from node `p`'s children list. -/
def detach (t : List LNode) (p c : Nat) : List LNode :=
  t.set p { getN t p with children := (getN t p).children.erase c }

/-- The `while node and node.children:` loop of `select_node`, with explicit
fuel.  On a node whose children are all terminal, the node is detached from
its parent (unless it is the root) and selection moves up; otherwise the
first terminal child with `reward == 1` is returned, and failing that the
loop descends to the non-terminal child maximizing `uct`. -/
noncomputable def selectAux : Nat → List LNode → Option Nat → List LNode × Option Nat
  | 0, t, cur => (t, cur)
  | _ + 1, t, none => (t, none)
  | fuel + 1, t, some i =>
    if (getN t i).children = [] then (t, some i)
    else
      if ((getN t i).children.filter (fun c => (getN t c).is_terminal)).length =
          (getN t i).children.length then
        match (getN t i).parent with
        | some p => selectAux fuel (detach t p i) (some p)
        | none => selectAux fuel t none
      else
        match ((getN t i).children.filter (fun c => (getN t c).is_terminal)).find?
            (fun c => (getN t c).reward = 1) with
        | some c => (t, some c)
        | none =>
          match maxByFirst (uct t)
              ((getN t i).children.filter (fun c => !(getN t c).is_terminal)) with
          | some j => selectAux fuel t (some j)
          | none => selectAux fuel t none

/-- Source `select_node(node)` starting at arena index `i`, with fuel large enough
for any interleaving of descents and detach-and-move-up steps. -/
noncomputable def select_node (t : List LNode) (i : Nat) : List LNode × Option Nat :=
  selectAux (t.length * t.length + t.length + 1) t (some i)

/-- Source `get_values(task, x, ys, n_evaluate_sample)`: one value per candidate in
order; a candidate equal to an earlier one gets value `0` via the local
cache, others are scored by `get_value` (the memoized LLM value estimator,
embedded as the deterministic oracle `val`). -/
def get_values (val : String → ℚ) (ys : List String) : List ℚ :=
  (ys.foldl
    (fun (acc : List ℚ × List String) y =>
      if y ∈ acc.2 then (acc.1 ++ [0], acc.2)
      else (acc.1 ++ [val y], y :: acc.2))
    ([], [])).1

/-- The value prompt built for a child in `evaluate_node` and `rollout`:
`child.question + generate_prompt(upward_traversal(child))`. -/
def childPrompt (t : List LNode) (c : Nat) : String :=
  (getN t c).question ++ generate_prompt t (upward_traversal t c)

/-- The assignment loop `for i, child in enumerate(node.children):
child.value = votes[i]`, given the children already zipped with their
votes. -/
def assignValues : List LNode → List (Nat × ℚ) → List LNode
  | t, [] => t
  | t, (c, v) :: rest => assignValues (t.set c { getN t c with value := v }) rest

/-- Source `evaluate_node(node, task, n_evaluate_sample)`: score the non-terminal
children, pad the vote list with zeros up to the child count, write
`child.value = votes[i]` positionally over all children, and return the
updated arena together with the vote average (`0` for a childless node). -/
def evaluate_node (val : String → ℚ) (t : List LNode) (i : Nat) : List LNode × ℚ :=
  let children := (getN t i).children
  let child_prompts :=
    (children.filter (fun c => !(getN t c).is_terminal)).map (childPrompt t)
  let votes := get_values val child_prompts
  let votes := votes ++ List.replicate (children.length - votes.length) 0
  (assignValues t (children.zip votes),
   if votes = [] then 0 else votes.sum / (votes.length : ℚ))

/-- A state produced by `generate_new_states` during `rollout`, as far as the
rollout loop inspects it: its terminal flag, its reward, and the rendered
value prompt `child.question + generate_prompt(upward_traversal(child))`
used to score it. -/
structure GState where
  prompt : String
  is_terminal : Bool
  reward : ℚ
deriving DecidableEq

instance : Inhabited GState := ⟨⟨"", false, 0⟩⟩

/-- The `while not node.is_terminal and depth < max_depth:` loop of
`rollout`, with the generation oracle `gen` indexed by call count `c` (the
inner `while len(new_states) == 0:` retry consumes further calls), the value
oracle `val`, the accumulated `rewards` list, and explicit fuel; `none`
models non-termination (the retry loops of the source).  A batch containing
a terminal state returns that state's reward immediately; otherwise the
maximum value and its first index pick the next node, and reaching
`max_depth` overwrites the accumulated rewards with `[-1]`. -/
def rolloutAux (gen : Nat → List GState) (val : String → ℚ) (maxDepth : Nat) :
    Nat → GState → Nat → Nat → List ℚ → Option (ℚ × GState)
  | 0, _, _, _, _ => none
  | fuel + 1, node, depth, c, rewards =>
    if node.is_terminal = false ∧ depth < maxDepth then
      if gen c = [] then rolloutAux gen val maxDepth fuel node depth (c + 1) rewards
      else
        ((gen c).find? (fun st => st.is_terminal)).elim
          (let prompts :=
            ((gen c).filter (fun st => !st.is_terminal)).map (fun st => st.prompt)
           let values := get_values val prompts
           if values = [] then none
           else
             let m := values.foldl max (values.headD 0)
             let idx := values.indexOf m
             let node' := (gen c).getD idx default
             let rewards' := if depth + 1 = maxDepth then [-1] else rewards ++ [m]
             rolloutAux gen val maxDepth fuel node' (depth + 1) (c + 1) rewards')
          (fun st => some (st.reward, st))
    else
      some (rewards.sum / (rewards.length : ℚ), node)

/-- Source `rollout(node, ...)` starting from a node with the given terminal flag
and depth, with the rewards list seeded as `[0]`. -/
def rollout (gen : Nat → List GState) (val : String → ℚ) (maxDepth : Nat)
    (fuel : Nat) (node : GState) (depth : Nat) : Option (ℚ × GState) :=
  rolloutAux gen val maxDepth fuel node depth 0 [0]

/-- One generation draw of `LATSMathStrategy.generate_children_nodes`: the
thought produced by `generate_thought` and the `(action_type, query)` pair
parsed by `generate_action`, all LLM-derived and hence oracle inputs here. -/
structure MathDraw where
  thought : String
  action_type : String
  query : String
deriving DecidableEq

instance : Inhabited MathDraw := ⟨⟨"", "", ""⟩⟩

/-- The deduplication key `f"{thought}::{action_type}::{query}"`. -/
def drawKey (d : MathDraw) : String :=
  d.thought ++ "::" ++ d.action_type ++ "::" ++ d.query

/-- The `external_tool_info` dict filled by
`LATSMathStrategy.generate_observation`. -/
structure ToolInfo where
  execution_status : String
  code_answer : String
deriving DecidableEq

/-- The `(reward, obs, done, external_tool_info)` result of
`LATSMathStrategy.generate_observation`. -/
structure ObsResult where
  reward : ℚ
  obs : String
  done : Bool
  info : ToolInfo
deriving DecidableEq

/-- Source `LATSMathStrategy.generate_observation`: run the query through the code
executor (`safe_execute`, an external collaborator embedded as the oracle
`exec?` returning `(code_answer[0], execution_status)`), then on `Finish`
check the executed answer against the key with the `EM` oracle (reward 1 and
`Answer is CORRECT` on match, else reward 0 and `Answer is INCORRECT`, done
either way); on `Calculate` report the execution; otherwise report an
invalid action.  `reward` starts 0 and `done` starts `False`. -/
def generate_observation (exec? : String → String × String)
    (em : String → String → Bool) (key : String)
    (action_type : String) (query : String) : ObsResult :=
  let codeAns := (exec? query).1
  let status := (exec? query).2
  if action_type.toLower = "finish" then
    if em codeAns key then ⟨1, "Answer is CORRECT", true, ⟨status, codeAns⟩⟩
    else ⟨0, "Answer is INCORRECT", true, ⟨status, codeAns⟩⟩
  else if action_type.toLower = "calculate" then
    ⟨0, "\n```python\n" ++ query ++ "\n```\nExecution Status: " ++ status ++
        "\nOutput: answer = " ++ codeAns, false, ⟨status, codeAns⟩⟩
  else
    ⟨0, "Invalid Action. Valid Actions are Calculate[code] and Finish[answer].",
     false, ⟨"", ""⟩⟩

/-- A child node built by `generate_children_nodes`.  `external_tool_info`
is `none` for the empty dict `{}` of a blank degenerate node and `some` of
the filled dict otherwise. -/
structure MathNode where
  thought : String
  action_type : String
  query : String
  observation : String
  answer : String
  external_tool_info : Option ToolInfo
  is_terminal : Bool
  reward : ℚ
deriving DecidableEq

instance : Inhabited MathNode := ⟨⟨"", "", "", "", "", none, false, 0⟩⟩

/-- A Failed Trajectory Record: the rendered root-to-node trajectory and the
raw query as `final_answer`. -/
structure MathFailedRec where
  trajectory : String
  final_answer : String
deriving DecidableEq

/-- Modelled from the spec: `get_node_trajectory_math` (imported by
`strategies/math.py` from the functional module but absent from the sources)
renders the root-to-child path; per spec section 4.1 the parent trajectory is
extended with `Thought d: <thought>`, `Action d: <action_type>[<query>]` and
`Observation d: <observation>` lines for the new child at depth `d`, each
included only when the corresponding field is non-empty. -/
def render_math_child (parentTraj : String) (depth : Nat) (n : MathNode) : String :=
  parentTraj ++
  (if n.thought ≠ "" then
    "\nThought " ++ toString depth ++ ": " ++ n.thought else "") ++
  (if n.action_type ≠ "" then
    "\nAction " ++ toString depth ++ ": " ++ n.action_type ++ "[" ++ n.query ++ "]"
   else "") ++
  (if n.observation ≠ "" then
    "\nObservation " ++ toString depth ++ ": " ++ n.observation else "")

/-- The real (non-degenerate) child node built for a fresh deduplication
key: observation data from `generate_observation`, `answer` set to the query
exactly when `done`, and `is_terminal = reward == 1 or done`. -/
def mkRealNode (exec? : String → String × String) (em : String → String → Bool)
    (key : String) (d : MathDraw) : MathNode :=
  let o := generate_observation exec? em key d.action_type d.query
  ⟨d.thought, d.action_type, d.query, o.obs, if o.done then d.query else "",
   some o.info, decide (o.reward = 1) || o.done, o.reward⟩

/-- The blank degenerate node materialized for a repeated deduplication key:
the drawn thought/action/query with empty observation, answer and tool info.
Modelled from the spec: the `Node` class of `agential/cog/lats/node.py` is
absent from the sources; its constructor defaults (`is_terminal = False`,
`reward = 0`), used by the blank branch, follow the spec's description of
degenerate nodes as non-terminal placeholders that contribute nothing. -/
def mkBlankNode (d : MathDraw) : MathNode :=
  ⟨d.thought, d.action_type, d.query, "", "", none, false, 0⟩

/-- The Failed Trajectory Record appended for a real child when it is
terminal with reward 0: the rendered root-to-child trajectory and the raw
query as `final_answer`; `none` when no record is appended. -/
def failedRecOf (exec? : String → String × String) (em : String → String → Bool)
    (key parentTraj : String) (depth : Nat) (d : MathDraw) : Option MathFailedRec :=
  let n := mkRealNode exec? em key d
  if n.is_terminal = true ∧ n.reward = 0 then
    some ⟨render_math_child parentTraj (depth + 1) n, d.query⟩
  else none

/-- The draw loop of `LATSMathStrategy.generate_children_nodes`: walk the
`n_samples` draws carrying the `unique_states` key set, the children built so
far, the failed-trajectory list and the log of observation-oracle calls
(each recorded as the `(action_type, query)` it was invoked on). -/
def gcnAux (exec? : String → String × String) (em : String → String → Bool)
    (key parentTraj : String) (depth : Nat) :
    List MathDraw → List String → List MathNode → List MathFailedRec →
    List (String × String) →
    List MathNode × List MathFailedRec × List (String × String)
  | [], _, cs, fs, log => (cs, fs, log)
  | d :: rest, seen, cs, fs, log =>
    if drawKey d ∈ seen then
      gcnAux exec? em key parentTraj depth rest seen (cs ++ [mkBlankNode d]) fs log
    else
      let node := mkRealNode exec? em key d
      let fs' := if node.is_terminal = true ∧ node.reward = 0 then
          fs ++ [⟨render_math_child parentTraj (depth + 1) node, d.query⟩]
        else fs
      gcnAux exec? em key parentTraj depth rest (drawKey d :: seen) (cs ++ [node])
        fs' (log ++ [(d.action_type, d.query)])

/-- Source `LATSMathStrategy.generate_children_nodes` for a node whose rendered
trajectory is `parentTraj` and whose depth is `depth`, given the list of
LLM generation draws and the pre-existing failed-trajectory list; returns
the children (one per draw), the updated failed-trajectory list, and the
log of observation-oracle calls. -/
def generate_children_nodes (exec? : String → String × String)
    (em : String → String → Bool) (key parentTraj : String) (depth : Nat)
    (draws : List MathDraw) (failed₀ : List MathFailedRec) :
    List MathNode × List MathFailedRec × List (String × String) :=
  gcnAux exec? em key parentTraj depth draws [] [] failed₀ []

/-- The subsequence of draws carrying the first occurrence of each
deduplication key (specification-side helper used to characterize the
outputs of `generate_children_nodes`). -/
def firstOccAux : List MathDraw → List String → List MathDraw
  | [], _ => []
  | d :: rest, seen =>
    if drawKey d ∈ seen then firstOccAux rest seen
    else d :: firstOccAux rest (drawKey d :: seen)

/-- The draws with genuinely new deduplication keys, in draw order. -/
def firstOcc (ds : List MathDraw) : List MathDraw := firstOccAux ds []

/-- Draw `j` repeats the deduplication key of an earlier draw. -/
def IsDupDraw (ds : List MathDraw) (j : Nat) : Prop :=
  ∃ i, i < j ∧ drawKey (ds.getD i default) = drawKey (ds.getD j default)

instance (ds : List MathDraw) (j : Nat) : Decidable (IsDupDraw ds j) := by
  unfold IsDupDraw; infer_instance

/-- A failed-trajectory entry of the functional module: the `trajectory` is
the list of traversed nodes and `final_answer` the raw query string. -/
structure FailedTraj where
  trajectory : List LNode
  final_answer : String
deriving DecidableEq

/-- Source `get_unique_trajectories(failed_trajectories, num=5)`: collect the
rendered trajectory of each entry whose `final_answer` was not seen before,
breaking as soon as the collected list has reached `num` entries (the break
is checked after each append). -/
def gutAux (num : Nat) : List FailedTraj → List String → List String → List String
  | [], _, acc => acc
  | tr :: rest, seen, acc =>
    if tr.final_answer ∈ seen then
      if num ≤ acc.length then acc else gutAux num rest seen acc
    else
      let acc' := acc ++ [generate_prompt_nodes tr.trajectory]
      if num ≤ acc'.length then acc'
      else gutAux num rest (tr.final_answer :: seen) acc'

/-- Source `get_unique_trajectories` with the unique-entry bound `num`
(default 5 in the source). -/
def get_unique_trajectories (failed : List FailedTraj) (num : Nat) : List String :=
  gutAux num failed [] []

/-- The failed entries carrying the first occurrence of each `final_answer`
(specification-side helper: dedup by `final_answer`, first-seen order). -/
def firstSeenAux : List FailedTraj → List String → List FailedTraj
  | [], _ => []
  | tr :: rest, seen =>
    if tr.final_answer ∈ seen then firstSeenAux rest seen
    else tr :: firstSeenAux rest (tr.final_answer :: seen)

/-- The failed entries deduplicated by `final_answer` in first-seen order. -/
def firstSeenDedup (failed : List FailedTraj) : List FailedTraj :=
  firstSeenAux failed []

/-- The children produced by the draw loop from a given set of already-seen
deduplication keys (specification-side recursion used to characterize
`generate_children_nodes`): a repeated key yields the blank degenerate node,
a fresh key yields the real oracle-backed node and marks the key seen. -/
def gcnChildrenSpec (exec? : String → String × String) (em : String → String → Bool)
    (key : String) : List MathDraw → List String → List MathNode
  | [], _ => []
  | d :: rest, seen =>
    if drawKey d ∈ seen then
      mkBlankNode d :: gcnChildrenSpec exec? em key rest seen
    else
      mkRealNode exec? em key d :: gcnChildrenSpec exec? em key rest (drawKey d :: seen)

/-- A concrete two-node arena (root with one terminal reward-0 child) used to
instantiate theorems with hypotheses on explicit inputs. -/
def bpT : List LNode :=
  [⟨⟨"", "", ""⟩, "Q", none, [1], 0, 0, 0, false, 0⟩,
   ⟨⟨"t1", "a1", "o1"⟩, "Q", some 0, [], 0, 0, 1, true, 0⟩]

/-- A concrete three-node arena for the selection claims: a root with a
terminal reward-1 child and a non-terminal child. -/
def selT1 : List LNode :=
  [⟨⟨"", "", ""⟩, "Q", none, [1, 2], 2, 0, 0, false, 0⟩,
   ⟨⟨"t1", "a1", "o1"⟩, "Q", some 0, [], 1, 1, 1, true, 1⟩,
   ⟨⟨"t2", "a2", "o2"⟩, "Q", some 0, [], 1, (1 : ℚ) / 2, 1, false, 0⟩]

/-- A concrete three-node arena for the pruning claim: a root, a middle node
all of whose children are terminal, and that terminal child. -/
def selT2 : List LNode :=
  [⟨⟨"", "", ""⟩, "Q", none, [1], 1, 0, 0, false, 0⟩,
   ⟨⟨"t1", "a1", "o1"⟩, "Q", some 0, [2], 1, 0, 1, false, 0⟩,
   ⟨⟨"t2", "a2", "o2"⟩, "Q", some 1, [], 1, 0, 2, true, 0⟩]

/-! Section: Arena access lemmas -/

theorem getN_set_self {t : List LNode} {i : Nat} (x : LNode) (h : i < t.length) :
    getN (t.set i x) i = x := by
  simp [getN, List.getD_eq_getElem?_getD, List.getElem?_set_self', h,
    List.getElem?_eq_getElem]

theorem getN_set_ne {t : List LNode} {i j : Nat} (x : LNode) (h : j ≠ i) :
    getN (t.set i x) j = getN t j := by
  simp [getN, List.getD_eq_getElem?_getD, List.getElem?_set_ne (Ne.symm h)]

theorem getN_set (t : List LNode) (i j : Nat) (x : LNode) :
    getN (t.set i x) j = if j = i ∧ i < t.length then x else getN t j := by
  by_cases hij : j = i
  · subst hij
    by_cases hi : j < t.length
    · simp [hi, getN_set_self x hi]
    · simp [hi, getN, List.set_eq_of_length_le (Nat.le_of_not_lt hi)]
  · simp [hij, getN_set_ne x hij]

/-! Section: Backpropagation lemmas -/

theorem backpropStep_parent (v : ℚ) (n : LNode) : (backpropStep v n).parent = n.parent := rfl

theorem backpropStep_children (v : ℚ) (n : LNode) :
    (backpropStep v n).children = n.children := rfl

theorem backpropStep_state (v : ℚ) (n : LNode) : (backpropStep v n).state = n.state := rfl

theorem backpropStep_question (v : ℚ) (n : LNode) :
    (backpropStep v n).question = n.question := rfl

theorem backpropStep_depth (v : ℚ) (n : LNode) : (backpropStep v n).depth = n.depth := rfl

theorem backpropStep_terminal (v : ℚ) (n : LNode) :
    (backpropStep v n).is_terminal = n.is_terminal := rfl

theorem backpropStep_reward (v : ℚ) (n : LNode) : (backpropStep v n).reward = n.reward := rfl

theorem backpropStep_visits (v : ℚ) (n : LNode) :
    (backpropStep v n).visits = n.visits + 1 := rfl

theorem backpropStep_value (v : ℚ) (n : LNode) :
    (backpropStep v n).value =
      (n.value * ((n.visits : ℚ)) + bpIncrement n v) / ((n.visits : ℚ) + 1) := by
  simp only [backpropStep, bpIncrement]
  push_cast
  ring_nf

theorem pathAux_none (t : List LNode) : ∀ fuel, pathAux t fuel none = [] := by
  intro fuel; cases fuel <;> rfl

theorem pathAux_congr {t₁ t₂ : List LNode}
    (h : ∀ k, (getN t₁ k).parent = (getN t₂ k).parent) :
    ∀ fuel cur, pathAux t₁ fuel cur = pathAux t₂ fuel cur := by
  intro fuel
  induction fuel with
  | zero => intro cur; simp [pathAux]
  | succ n ih =>
    intro cur
    cases cur with
    | none => simp [pathAux]
    | some i => simp [pathAux, h i, ih]

theorem pathAux_elems {t : List LNode} (hw : ParentLT t) :
    ∀ fuel i, i < t.length → ∀ k, k ∈ pathAux t fuel (some i) → k ≤ i ∧ k < t.length := by
  intro fuel
  induction fuel with
  | zero => intro i _ k hk; simp [pathAux] at hk
  | succ n ih =>
    intro i hi k hk
    simp only [pathAux, List.mem_cons] at hk
    rcases hk with rfl | hk
    · exact ⟨Nat.le_refl _, hi⟩
    · cases hpar : (getN t i).parent with
      | none => rw [hpar, pathAux_none] at hk; simp at hk
      | some p =>
        rw [hpar] at hk
        have hp : p < i := hw i hi p hpar
        have hp' : p < t.length := Nat.lt_trans hp hi
        obtain ⟨h1, h2⟩ := ih p hp' k hk
        exact ⟨Nat.le_trans h1 (Nat.le_of_lt hp), h2⟩

theorem backpropAux_length (v : ℚ) :
    ∀ fuel (t : List LNode) cur, (backpropAux v fuel t cur).length = t.length := by
  intro fuel
  induction fuel with
  | zero => intro t cur; simp [backpropAux]
  | succ n ih =>
    intro t cur
    cases cur with
    | none => simp [backpropAux]
    | some i => simp [backpropAux, ih]

theorem parentLT_set {t : List LNode} {i : Nat} {x : LNode} (hw : ParentLT t)
    (hx : x.parent = (getN t i).parent) : ParentLT (t.set i x) := by
  intro j hj p hp
  rw [List.length_set] at hj
  rw [getN_set] at hp
  by_cases hcase : j = i ∧ i < t.length
  · obtain ⟨heq, hlt⟩ := hcase
    subst heq
    rw [if_pos ⟨rfl, hlt⟩] at hp
    exact hw j hj p (hx ▸ hp)
  · rw [if_neg hcase] at hp
    exact hw j hj p hp

theorem backpropAux_getN (v : ℚ) :
    ∀ fuel (t : List LNode) (cur : Option Nat), ParentLT t →
    (∀ i, cur = some i → i < t.length) → ∀ j,
    getN (backpropAux v fuel t cur) j =
      if j ∈ pathAux t fuel cur then backpropStep v (getN t j) else getN t j := by
  intro fuel
  induction fuel with
  | zero => intro t cur _ _ j; simp [backpropAux, pathAux]
  | succ n ih =>
    intro t cur hw hcur j
    cases cur with
    | none => simp [backpropAux, pathAux]
    | some i =>
      have hi : i < t.length := hcur i rfl
      have hpar : ∀ k, (getN (t.set i (backpropStep v (getN t i))) k).parent =
          (getN t k).parent := by
        intro k
        rw [getN_set]
        by_cases hk : k = i ∧ i < t.length
        · rw [if_pos hk, backpropStep_parent]; rw [hk.1]
        · rw [if_neg hk]
      have hw' : ParentLT (t.set i (backpropStep v (getN t i))) :=
        parentLT_set hw (backpropStep_parent v (getN t i))
      have hcur' : ∀ p, (getN t i).parent = some p →
          p < (t.set i (backpropStep v (getN t i))).length := by
        intro p hp
        rw [List.length_set]
        exact Nat.lt_trans (hw i hi p hp) hi
      have hstep : backpropAux v (n + 1) t (some i) =
          backpropAux v n (t.set i (backpropStep v (getN t i))) (getN t i).parent := rfl
      have hpath : pathAux (t.set i (backpropStep v (getN t i))) n (getN t i).parent =
          pathAux t n (getN t i).parent := pathAux_congr hpar n _
      rw [hstep, ih _ _ hw' hcur' j, hpath]
      by_cases hji : j = i
      · subst hji
        have hnot : j ∉ pathAux t n (getN t j).parent := by
          cases hpp : (getN t j).parent with
          | none => rw [pathAux_none]; simp
          | some p =>
            intro hmem
            have hp : p < j := hw j hi p hpp
            have := (pathAux_elems hw n p (Nat.lt_trans hp hi) j hmem).1
            exact absurd (Nat.lt_of_le_of_lt this hp) (Nat.lt_irrefl j)
        rw [if_neg hnot, getN_set_self _ hi]
        simp [pathAux]
      · have hget : getN (t.set i (backpropStep v (getN t i))) j = getN t j :=
          getN_set_ne _ hji
        rw [hget]
        have hmem : (j ∈ pathAux t (n + 1) (some i)) ↔
            (j ∈ pathAux t n (getN t i).parent) := by
          simp [pathAux, hji]
        by_cases hin : j ∈ pathAux t n (getN t i).parent
        · rw [if_pos hin, if_pos (hmem.mpr hin)]
        · rw [if_neg hin, if_neg (fun h => hin (hmem.mp h))]

theorem backpropagate_getN {t : List LNode} (hw : ParentLT t) {i : Nat}
    (hi : i < t.length) (v : ℚ) (j : Nat) :
    getN (backpropagate t i v) j =
      if j ∈ pathToRoot t i then backpropStep v (getN t j) else getN t j :=
  backpropAux_getN v (i + 1) t (some i) hw (fun _ h => (Option.some_inj.mp h) ▸ hi) j

theorem backpropagate_length (t : List LNode) (i : Nat) (v : ℚ) :
    (backpropagate t i v).length = t.length :=
  backpropAux_length v (i + 1) t (some i)

theorem backpropagate_parent {t : List LNode} (hw : ParentLT t) {i : Nat}
    (hi : i < t.length) (v : ℚ) (j : Nat) :
    (getN (backpropagate t i v) j).parent = (getN t j).parent := by
  rw [backpropagate_getN hw hi v j]
  split
  · rw [backpropStep_parent]
  · rfl

theorem backpropagate_parentLT {t : List LNode} (hw : ParentLT t) {i : Nat}
    (hi : i < t.length) (v : ℚ) : ParentLT (backpropagate t i v) := by
  intro j hj p hp
  rw [backpropagate_length] at hj
  rw [backpropagate_parent hw hi v j] at hp
  exact hw j hj p hp

theorem backpropagate_pathToRoot {t : List LNode} (hw : ParentLT t) {i : Nat}
    (hi : i < t.length) (v : ℚ) (k : Nat) :
    pathToRoot (backpropagate t i v) k = pathToRoot t k :=
  pathAux_congr (fun j => backpropagate_parent hw hi v j) (k + 1) (some k)

theorem pathAux_fuel {t : List LNode} (hw : ParentLT t) :
    ∀ i, i < t.length → ∀ f g, i < f → i < g →
    pathAux t f (some i) = pathAux t g (some i) := by
  intro i
  induction i using Nat.strong_induction_on with
  | _ i ih =>
    intro hi f g hf hg
    obtain ⟨f', rfl⟩ : ∃ f', f = f' + 1 := ⟨f - 1, (Nat.succ_pred_eq_of_pos (Nat.lt_of_le_of_lt (Nat.zero_le _) hf)).symm⟩
    obtain ⟨g', rfl⟩ : ∃ g', g = g' + 1 := ⟨g - 1, (Nat.succ_pred_eq_of_pos (Nat.lt_of_le_of_lt (Nat.zero_le _) hg)).symm⟩
    show i :: pathAux t f' (getN t i).parent = i :: pathAux t g' (getN t i).parent
    cases hpar : (getN t i).parent with
    | none => rw [pathAux_none, pathAux_none]
    | some p =>
      have hp : p < i := hw i hi p hpar
      have hp' : p < t.length := Nat.lt_trans hp hi
      have hf' : p < f' := Nat.lt_of_lt_of_le hp (Nat.le_of_lt_succ hf)
      have hg' : p < g' := Nat.lt_of_lt_of_le hp (Nat.le_of_lt_succ hg)
      rw [ih p hp hp' f' g' hf' hg']

theorem pathToRoot_head (t : List LNode) (i : Nat) :
    (pathToRoot t i).head? = some i := rfl

theorem pathToRoot_last {t : List LNode} (hw : ParentLT t) :
    ∀ i, i < t.length →
    ∃ r, (pathToRoot t i).getLast? = some r ∧ (getN t r).parent = none := by
  intro i
  induction i using Nat.strong_induction_on with
  | _ i ih =>
    intro hi
    show ∃ r, (i :: pathAux t i (getN t i).parent).getLast? = some r ∧
      (getN t r).parent = none
    cases hpar : (getN t i).parent with
    | none =>
      refine ⟨i, ?_, hpar⟩
      rw [pathAux_none]
      rfl
    | some p =>
      have hp : p < i := hw i hi p hpar
      have hp' : p < t.length := Nat.lt_trans hp hi
      have : pathAux t i (some p) = pathToRoot t p :=
        pathAux_fuel hw p hp' i (p + 1) hp (Nat.lt_succ_self p)
      rw [this]
      obtain ⟨r, hr, hrp⟩ := ih p hp hp'
      refine ⟨r, ?_, hrp⟩
      cases hpath : pathToRoot t p with
      | nil =>
        refine absurd hpath ?_
        show p :: pathAux t p (getN t p).parent ≠ []
        exact List.cons_ne_nil _ _
      | cons a l =>
        rw [hpath] at hr
        rw [List.getLast?_cons_cons]
        exact hr

theorem bpIncrement_congr {n₁ n₂ : LNode} (ht : n₁.is_terminal = n₂.is_terminal)
    (hr : n₁.reward = n₂.reward) : bpIncrement n₁ = bpIncrement n₂ := by
  funext v
  simp [bpIncrement, ht, hr]

theorem backpropMany_cons (t : List LNode) (p : Nat × ℚ) (ps : List (Nat × ℚ)) :
    backpropMany t (p :: ps) = backpropMany (backpropagate t p.1 p.2) ps := rfl

theorem backpropMany_at {j : Nat} :
    ∀ (vs : List ℚ) (t : List LNode) (i : Nat), ParentLT t → i < t.length →
    j ∈ pathToRoot t i → ((getN t j).visits = 0 → (getN t j).value = 0) →
    (getN (backpropMany t (vs.map (fun v' => (i, v')))) j).is_terminal =
      (getN t j).is_terminal ∧
    (getN (backpropMany t (vs.map (fun v' => (i, v')))) j).reward = (getN t j).reward ∧
    (getN (backpropMany t (vs.map (fun v' => (i, v')))) j).visits =
      (getN t j).visits + vs.length ∧
    (getN (backpropMany t (vs.map (fun v' => (i, v')))) j).value =
      ((getN t j).value * ((getN t j).visits : ℚ) +
        (vs.map (bpIncrement (getN t j))).sum) /
          (((getN t j).visits : ℚ) + (vs.length : ℚ)) := by
  intro vs
  induction vs with
  | nil =>
    intro t i _ _ _ hcons
    refine ⟨rfl, rfl, by simp [backpropMany], ?_⟩
    simp only [backpropMany, List.map_nil, List.foldl_nil, List.sum_nil, List.length_nil]
    by_cases hv : (getN t j).visits = 0
    · rw [hcons hv, hv]; norm_num
    · have : ((getN t j).visits : ℚ) ≠ 0 := Nat.cast_ne_zero.mpr hv
      field_simp
  | cons v rest ih =>
    intro t i hw hi hj hcons
    have hup : getN (backpropagate t i v) j = backpropStep v (getN t j) := by
      rw [backpropagate_getN hw hi v j, if_pos hj]
    have hw' : ParentLT (backpropagate t i v) := backpropagate_parentLT hw hi v
    have hi' : i < (backpropagate t i v).length := by rw [backpropagate_length]; exact hi
    have hj' : j ∈ pathToRoot (backpropagate t i v) i := by
      rw [backpropagate_pathToRoot hw hi v]; exact hj
    have hcons' : (getN (backpropagate t i v) j).visits = 0 →
        (getN (backpropagate t i v) j).value = 0 := by
      rw [hup, backpropStep_visits]; omega
    have hmap : (v :: rest).map (fun v' => (i, v')) =
        (i, v) :: rest.map (fun v' => (i, v')) := rfl
    rw [hmap, backpropMany_cons]
    obtain ⟨h1, h2, h3, h4⟩ := ih (backpropagate t i v) i hw' hi' hj' hcons'
    have hterm : (getN (backpropagate t i v) j).is_terminal = (getN t j).is_terminal := by
      rw [hup, backpropStep_terminal]
    have hrew : (getN (backpropagate t i v) j).reward = (getN t j).reward := by
      rw [hup, backpropStep_reward]
    have hinc : bpIncrement (getN (backpropagate t i v) j) = bpIncrement (getN t j) :=
      bpIncrement_congr hterm hrew
    refine ⟨h1.trans hterm, h2.trans hrew, ?_, ?_⟩
    · rw [h3, hup, backpropStep_visits]
      simp [Nat.add_comm, Nat.add_assoc, Nat.add_left_comm]
    · rw [h4, hinc, hup, backpropStep_visits, backpropStep_value]
      have hne : ((getN t j).visits : ℚ) + 1 ≠ 0 := by positivity
      push_cast
      rw [div_mul_cancel₀ _ hne, List.map_cons, List.sum_cons]
      push_cast [List.length_cons]
      ring

/-- Executable check for `ParentLT`, for concrete instances. -/
def parentLTb (t : List LNode) : Bool :=
  (List.range t.length).all (fun j => ((getN t j).parent.getD 0 < j || (getN t j).parent = none))

theorem parentLTb_iff (t : List LNode) : parentLTb t = true ↔ ParentLT t := by
  simp only [parentLTb, List.all_eq_true, List.mem_range, Bool.or_eq_true,
    decide_eq_true_eq]
  constructor
  · intro h j hj p hp
    rcases h j hj with h' | h'
    · rwa [hp, Option.getD_some] at h'
    · rw [h'] at hp; exact absurd hp (by simp)
  · intro h j hj
    cases hp : (getN t j).parent with
    | none => right; rfl
    | some p => left; rw [Option.getD_some]; exact h j hj p hp

instance (t : List LNode) : Decidable (ParentLT t) :=
  decidable_of_iff (parentLTb t = true) (parentLTb_iff t)


/-! Section: Claim C3 and C10: backpropagation -/

/-- C3: `backpropagate(n, v)` walks from `n` up to the root; each node on the
path has `visits` incremented by exactly 1 and `value` updated by
`value = (value * (visits - 1) + increment) / visits` where the increment is
`-1` for a terminal node with `reward == 0` and `v` otherwise; starting from
a fresh node (`visits = 0`, `value = 0`), after `k` passes the node's value
is the running mean of its `k` increments. -/
theorem claim_C3_backpropagate_running_mean (t : List LNode) (hw : ParentLT t)
    (i : Nat) (hi : i < t.length) (v : ℚ) (j : Nat) (hj : j ∈ pathToRoot t i) :
    ((getN (backpropagate t i v) j).visits = (getN t j).visits + 1 ∧
     (getN (backpropagate t i v) j).value =
       ((getN t j).value * ((getN t j).visits : ℚ) +
         (if (getN t j).is_terminal = true ∧ (getN t j).reward = 0 then -1 else v)) /
         (((getN t j).visits : ℚ) + 1)) ∧
    ((pathToRoot t i).head? = some i ∧
     ∃ r, (pathToRoot t i).getLast? = some r ∧ (getN t r).parent = none) ∧
    (∀ vs : List ℚ, (getN t j).visits = 0 → (getN t j).value = 0 →
      (getN (backpropMany t (vs.map (fun v' => (i, v')))) j).visits = vs.length ∧
      (getN (backpropMany t (vs.map (fun v' => (i, v')))) j).value =
        (vs.map (bpIncrement (getN t j))).sum / (vs.length : ℚ)) := by
  refine ⟨?_, ⟨pathToRoot_head t i, pathToRoot_last hw i hi⟩, ?_⟩
  · rw [backpropagate_getN hw hi v j, if_pos hj, backpropStep_visits,
      backpropStep_value]
    exact ⟨rfl, rfl⟩
  · intro vs hv0 hval
    obtain ⟨_, _, h3, h4⟩ :=
      backpropMany_at vs t i hw hi hj (fun _ => hval)
    constructor
    · rw [h3, hv0, Nat.zero_add]
    · rw [h4, hv0, hval]
      norm_num

/-- Witness for C3 on the concrete arena `bpT`, backpropagating reward 5 from
the terminal reward-0 child (index 1). -/
theorem claim_C3_witness :
    ParentLT bpT ∧ 1 < bpT.length ∧ (1 : Nat) ∈ pathToRoot bpT 1 ∧
    (((getN (backpropagate bpT 1 5) 1).visits = (getN bpT 1).visits + 1 ∧
      (getN (backpropagate bpT 1 5) 1).value =
        ((getN bpT 1).value * ((getN bpT 1).visits : ℚ) +
          (if (getN bpT 1).is_terminal = true ∧ (getN bpT 1).reward = 0 then -1
           else 5)) / (((getN bpT 1).visits : ℚ) + 1)) ∧
     ((pathToRoot bpT 1).head? = some 1 ∧
      ∃ r, (pathToRoot bpT 1).getLast? = some r ∧ (getN bpT r).parent = none) ∧
     (∀ vs : List ℚ, (getN bpT 1).visits = 0 → (getN bpT 1).value = 0 →
       (getN (backpropMany bpT (vs.map (fun v' => (1, v')))) 1).visits = vs.length ∧
       (getN (backpropMany bpT (vs.map (fun v' => (1, v')))) 1).value =
         (vs.map (bpIncrement (getN bpT 1))).sum / (vs.length : ℚ))) :=
  ⟨by decide, by decide, by decide,
   claim_C3_backpropagate_running_mean bpT (by decide) 1 (by decide) 5 1 (by decide)⟩

/-- C10: `backpropagate(n, v)` modifies only the `visits` and `value` fields
of the nodes on the path from `n` to the root; every node off the path is
entirely unchanged, and the `parent`, `children`, `state`, `question`,
`depth`, `is_terminal` and `reward` fields of every node (on or off the
path) are unchanged, as is the node count. -/
theorem claim_C10_backpropagate_frame (t : List LNode) (hw : ParentLT t)
    (i : Nat) (hi : i < t.length) (v : ℚ) :
    (backpropagate t i v).length = t.length ∧
    (∀ j, j ∉ pathToRoot t i → getN (backpropagate t i v) j = getN t j) ∧
    (∀ j, (getN (backpropagate t i v) j).parent = (getN t j).parent ∧
      (getN (backpropagate t i v) j).children = (getN t j).children ∧
      (getN (backpropagate t i v) j).state = (getN t j).state ∧
      (getN (backpropagate t i v) j).question = (getN t j).question ∧
      (getN (backpropagate t i v) j).depth = (getN t j).depth ∧
      (getN (backpropagate t i v) j).is_terminal = (getN t j).is_terminal ∧
      (getN (backpropagate t i v) j).reward = (getN t j).reward) := by
  refine ⟨backpropagate_length t i v, ?_, ?_⟩
  · intro j hj
    rw [backpropagate_getN hw hi v j, if_neg hj]
  · intro j
    rw [backpropagate_getN hw hi v j]
    split
    · exact ⟨rfl, rfl, rfl, rfl, rfl, rfl, rfl⟩
    · exact ⟨rfl, rfl, rfl, rfl, rfl, rfl, rfl⟩

/-- Witness for C10 on the concrete arena `bpT`. -/
theorem claim_C10_witness :
    ParentLT bpT ∧ 1 < bpT.length ∧
    ((backpropagate bpT 1 5).length = bpT.length ∧
     (∀ j, j ∉ pathToRoot bpT 1 → getN (backpropagate bpT 1 5) j = getN bpT j) ∧
     (∀ j, (getN (backpropagate bpT 1 5) j).parent = (getN bpT j).parent ∧
       (getN (backpropagate bpT 1 5) j).children = (getN bpT j).children ∧
       (getN (backpropagate bpT 1 5) j).state = (getN bpT j).state ∧
       (getN (backpropagate bpT 1 5) j).question = (getN bpT j).question ∧
       (getN (backpropagate bpT 1 5) j).depth = (getN bpT j).depth ∧
       (getN (backpropagate bpT 1 5) j).is_terminal = (getN bpT j).is_terminal ∧
       (getN (backpropagate bpT 1 5) j).reward = (getN bpT j).reward)) :=
  ⟨by decide, by decide,
   claim_C10_backpropagate_frame bpT (by decide) 1 (by decide) 5⟩

/-! Section: Selection lemmas -/

theorem pyMaxFold_spec {α : Type} [LinearOrder α] (score : Nat → α) :
    ∀ (xs : List Nat) (b : Nat),
    (pyMaxFold score b xs = b ∧ ∀ y ∈ xs, score y ≤ score b) ∨
    (score b < score (pyMaxFold score b xs) ∧
     ∃ l₁ l₂, xs = l₁ ++ pyMaxFold score b xs :: l₂ ∧
       (∀ y ∈ l₁, score y < score (pyMaxFold score b xs)) ∧
       (∀ y ∈ l₂, score y ≤ score (pyMaxFold score b xs))) := by
  intro xs
  induction xs with
  | nil => intro b; left; exact ⟨rfl, by simp⟩
  | cons y ys ih =>
    intro b
    have hstep : pyMaxFold score b (y :: ys) =
        pyMaxFold score (if score b < score y then y else b) ys := rfl
    by_cases h : score b < score y
    · rw [if_pos h] at hstep
      rcases ih y with ⟨hr, hys⟩ | ⟨hlt, l₁, l₂, hdec, h₁, h₂⟩
      · right
        rw [hstep, hr]
        exact ⟨h, [], ys, rfl, by simp, hys⟩
      · right
        rw [hstep]
        refine ⟨lt_trans h hlt, y :: l₁, l₂, by rw [List.cons_append, ← hdec], ?_, h₂⟩
        intro z hz
        rcases List.mem_cons.mp hz with rfl | hz'
        · exact hlt
        · exact h₁ z hz'
    · rw [if_neg h] at hstep
      rcases ih b with ⟨hr, hys⟩ | ⟨hlt, l₁, l₂, hdec, h₁, h₂⟩
      · left
        rw [hstep, hr]
        refine ⟨rfl, ?_⟩
        intro z hz
        rcases List.mem_cons.mp hz with rfl | hz'
        · exact le_of_not_lt h
        · exact hys z hz'
      · right
        rw [hstep]
        refine ⟨hlt, y :: l₁, l₂, by rw [List.cons_append, ← hdec], ?_, h₂⟩
        intro z hz
        rcases List.mem_cons.mp hz with rfl | hz'
        · exact lt_of_le_of_lt (le_of_not_lt h) hlt
        · exact h₁ z hz'

theorem maxByFirst_spec {α : Type} [LinearOrder α] (score : Nat → α)
    (l : List Nat) (r : Nat) (h : maxByFirst score l = some r) :
    ∃ l₁ l₂, l = l₁ ++ r :: l₂ ∧ (∀ y ∈ l₁, score y < score r) ∧
      (∀ y ∈ l₂, score y ≤ score r) := by
  cases l with
  | nil => exact absurd h (by simp [maxByFirst])
  | cons x xs =>
    have hr : r = pyMaxFold score x xs := by
      have := Option.some_inj.mp h
      exact this.symm
    subst hr
    rcases pyMaxFold_spec score xs x with ⟨hb, hys⟩ | ⟨hlt, l₁, l₂, hdec, h₁, h₂⟩
    · refine ⟨[], xs, by rw [hb]; rfl, by simp, ?_⟩
      intro y hy
      exact le_trans (hys y hy) (le_of_eq (congrArg score hb.symm))
    · refine ⟨x :: l₁, l₂, by rw [List.cons_append, ← hdec], ?_, h₂⟩
      intro z hz
      rcases List.mem_cons.mp hz with rfl | hz'
      · exact hlt
      · exact h₁ z hz'

theorem find?_decomp {α : Type} (p : α → Bool) :
    ∀ (l : List α) (a : α), l.find? p = some a →
    p a = true ∧ ∃ l₁ l₂, l = l₁ ++ a :: l₂ ∧ ∀ y ∈ l₁, p y = false := by
  intro l
  induction l with
  | nil => intro a h; simp at h
  | cons x xs ih =>
    intro a h
    by_cases hx : p x = true
    · rw [List.find?_cons_of_pos _ hx] at h
      obtain rfl := Option.some_inj.mp h
      exact ⟨hx, [], xs, rfl, by simp⟩
    · rw [List.find?_cons_of_neg _ hx] at h
      obtain ⟨hpa, l₁, l₂, rfl, hl₁⟩ := ih a h
      refine ⟨hpa, x :: l₁, l₂, rfl, ?_⟩
      intro y hy
      rcases List.mem_cons.mp hy with rfl | hy'
      · exact Bool.not_eq_true _ ▸ (by simpa using hx)
      · exact hl₁ y hy'

theorem find?_filter_comm {α : Type} (q p : α → Bool) :
    ∀ l : List α, (l.filter q).find? p = l.find? (fun x => q x && p x) := by
  intro l
  induction l with
  | nil => rfl
  | cons x xs ih =>
    by_cases hq : q x = true
    · rw [List.filter_cons_of_pos hq]
      by_cases hp : p x = true
      · rw [List.find?_cons_of_pos _ hp, List.find?_cons_of_pos _ (by simp [hq, hp])]
      · rw [List.find?_cons_of_neg _ hp, List.find?_cons_of_neg _ (by simp [hq, hp]), ih]
    · rw [List.filter_cons_of_neg hq, List.find?_cons_of_neg _ (by simp [hq]), ih]

theorem filter_length_lt {α : Type} (q : α → Bool) :
    ∀ l : List α, (∃ x ∈ l, q x = false) → (l.filter q).length < l.length := by
  intro l
  induction l with
  | nil => intro h; simp at h
  | cons x xs ih =>
    intro h
    by_cases hq : q x = true
    · rw [List.filter_cons_of_pos hq]
      obtain ⟨w, hw, hwq⟩ := h
      rcases List.mem_cons.mp hw with rfl | hw'
      · rw [hq] at hwq; exact absurd hwq (by simp)
      · exact Nat.succ_lt_succ (ih ⟨w, hw', hwq⟩)
    · rw [List.filter_cons_of_neg hq]
      exact Nat.lt_succ_of_le (List.length_filter_le q xs)

theorem selectAux_none (t : List LNode) : ∀ fuel, selectAux fuel t none = (t, none) := by
  intro fuel; cases fuel <;> rfl

theorem selectAux_step (fuel : Nat) (t : List LNode) (i : Nat) :
    selectAux (fuel + 1) t (some i) =
      if (getN t i).children = [] then (t, some i)
      else if ((getN t i).children.filter (fun c => (getN t c).is_terminal)).length =
          (getN t i).children.length then
        match (getN t i).parent with
        | some p => selectAux fuel (detach t p i) (some p)
        | none => selectAux fuel t none
      else
        match ((getN t i).children.filter (fun c => (getN t c).is_terminal)).find?
            (fun c => decide ((getN t c).reward = 1)) with
        | some c => (t, some c)
        | none =>
          match maxByFirst (uct t)
              ((getN t i).children.filter (fun c => !(getN t c).is_terminal)) with
          | some j => selectAux fuel t (some j)
          | none => selectAux fuel t none := rfl

theorem selectAux_found {t : List LNode} {i c : Nat} (fuel : Nat)
    (hne : (getN t i).children ≠ [])
    (hlen : ((getN t i).children.filter (fun c => (getN t c).is_terminal)).length ≠
      (getN t i).children.length)
    (hfind : ((getN t i).children.filter (fun c => (getN t c).is_terminal)).find?
      (fun c => decide ((getN t c).reward = 1)) = some c) :
    selectAux (fuel + 1) t (some i) = (t, some c) := by
  rw [selectAux_step, if_neg hne, if_neg hlen, hfind]

theorem selectAux_descend {t : List LNode} {i j : Nat} (fuel : Nat)
    (hne : (getN t i).children ≠ [])
    (hlen : ((getN t i).children.filter (fun c => (getN t c).is_terminal)).length ≠
      (getN t i).children.length)
    (hfind : ((getN t i).children.filter (fun c => (getN t c).is_terminal)).find?
      (fun c => decide ((getN t c).reward = 1)) = none)
    (hmax : maxByFirst (uct t)
      ((getN t i).children.filter (fun c => !(getN t c).is_terminal)) = some j) :
    selectAux (fuel + 1) t (some i) = selectAux fuel t (some j) := by
  rw [selectAux_step, if_neg hne, if_neg hlen, hfind, hmax]

theorem selectAux_allTerminal_mid {t : List LNode} {i p : Nat} (fuel : Nat)
    (hne : (getN t i).children ≠ [])
    (hlen : ((getN t i).children.filter (fun c => (getN t c).is_terminal)).length =
      (getN t i).children.length)
    (hpar : (getN t i).parent = some p) :
    selectAux (fuel + 1) t (some i) = selectAux fuel (detach t p i) (some p) := by
  rw [selectAux_step, if_neg hne, if_pos hlen, hpar]

theorem selectAux_allTerminal_root {t : List LNode} {i : Nat} (fuel : Nat)
    (hne : (getN t i).children ≠ [])
    (hlen : ((getN t i).children.filter (fun c => (getN t c).is_terminal)).length =
      (getN t i).children.length)
    (hpar : (getN t i).parent = none) :
    selectAux (fuel + 1) t (some i) = (t, none) := by
  rw [selectAux_step, if_neg hne, if_pos hlen, hpar, selectAux_none]

/-! Section: Claim C1 and C2: selection -/

/-- C1: during SELECT, at a node with at least one non-terminal child: if any
terminal child has `reward == 1`, the first such child (in children order) is
returned immediately with the arena untouched; otherwise selection descends
to the non-terminal child maximizing the UCT score, ties broken by encounter
order (all earlier non-terminal children score strictly less, all later ones
at most as much); and the UCT score is `value / visits +
sqrt(2 * ln(parent.visits) / visits)` for `visits > 0` and the raw `value`
alone for `visits == 0`. -/
theorem claim_C1_select_uct (t : List LNode) (i fuel : Nat)
    (hne : (getN t i).children ≠ [])
    (hnt : ∃ c ∈ (getN t i).children, (getN t c).is_terminal = false) :
    ((∃ c ∈ (getN t i).children,
        (getN t c).is_terminal = true ∧ (getN t c).reward = 1) →
      ∃ c l₁ l₂, (getN t i).children = l₁ ++ c :: l₂ ∧
        (getN t c).is_terminal = true ∧ (getN t c).reward = 1 ∧
        (∀ y ∈ l₁, ¬((getN t y).is_terminal = true ∧ (getN t y).reward = 1)) ∧
        selectAux (fuel + 1) t (some i) = (t, some c)) ∧
    ((∀ c ∈ (getN t i).children,
        ¬((getN t c).is_terminal = true ∧ (getN t c).reward = 1)) →
      ∃ j l₁ l₂,
        (getN t i).children.filter (fun c => !(getN t c).is_terminal) =
          l₁ ++ j :: l₂ ∧
        (∀ y ∈ l₁, uct t y < uct t j) ∧ (∀ y ∈ l₂, uct t y ≤ uct t j) ∧
        selectAux (fuel + 1) t (some i) = selectAux fuel t (some j)) ∧
    (∀ c p, (getN t c).parent = some p →
      uct t c = if (getN t c).visits = 0 then ((getN t c).value : ℝ)
        else ((getN t c).value : ℝ) / ((getN t c).visits : ℝ) +
          Real.sqrt (2 * Real.log (((getN t p).visits : ℝ)) /
            ((getN t c).visits : ℝ))) := by
  have hlen : ((getN t i).children.filter (fun c => (getN t c).is_terminal)).length ≠
      (getN t i).children.length := by
    obtain ⟨c, hc, hcf⟩ := hnt
    exact Nat.ne_of_lt (filter_length_lt _ _ ⟨c, hc, by simp [hcf]⟩)
  refine ⟨?_, ?_, ?_⟩
  · rintro ⟨c, hcmem, hct, hcr⟩
    cases hfind : (getN t i).children.find?
        (fun x => (getN t x).is_terminal && decide ((getN t x).reward = 1)) with
    | none =>
      exfalso
      have := List.find?_eq_none.mp hfind c hcmem
      simp [hct, hcr] at this
    | some c' =>
      obtain ⟨hp, l₁, l₂, hdec, hl₁⟩ := find?_decomp _ _ _ hfind
      simp only [Bool.and_eq_true, decide_eq_true_eq] at hp
      refine ⟨c', l₁, l₂, hdec, hp.1, hp.2, ?_, ?_⟩
      · intro y hy hcontra
        have := hl₁ y hy
        simp [hcontra.1, hcontra.2] at this
      · refine selectAux_found fuel hne hlen ?_
        rw [find?_filter_comm]
        exact hfind
  · intro hnone
    have hfind : ((getN t i).children.filter (fun c => (getN t c).is_terminal)).find?
        (fun c => decide ((getN t c).reward = 1)) = none := by
      rw [find?_filter_comm]
      refine List.find?_eq_none.mpr ?_
      intro x hx
      simp only [Bool.and_eq_true, decide_eq_true_eq]
      intro hcontra
      exact hnone x hx hcontra
    obtain ⟨c, hcmem, hcf⟩ := hnt
    have hmem : c ∈ (getN t i).children.filter (fun c => !(getN t c).is_terminal) :=
      List.mem_filter.mpr ⟨hcmem, by simp [hcf]⟩
    cases hfl : (getN t i).children.filter (fun c => !(getN t c).is_terminal) with
    | nil => rw [hfl] at hmem; simp at hmem
    | cons x xs =>
      have hmax : maxByFirst (uct t) (x :: xs) = some (pyMaxFold (uct t) x xs) := rfl
      obtain ⟨l₁, l₂, hdec, h₁, h₂⟩ := maxByFirst_spec (uct t) (x :: xs) _ hmax
      refine ⟨pyMaxFold (uct t) x xs, l₁, l₂, hdec, h₁, h₂, ?_⟩
      exact selectAux_descend fuel hne hlen hfind (by rw [hfl]; exact hmax)
  · intro c p hp
    simp only [uct, hp, Option.getD_some]

/-- Witness for C1 on the concrete arena `selT1` (root `0` with a terminal
reward-1 child `1` and a non-terminal child `2`). -/
theorem claim_C1_witness :
    (getN selT1 0).children ≠ [] ∧
    (∃ c ∈ (getN selT1 0).children, (getN selT1 c).is_terminal = false) ∧
    (((∃ c ∈ (getN selT1 0).children,
        (getN selT1 c).is_terminal = true ∧ (getN selT1 c).reward = 1) →
      ∃ c l₁ l₂, (getN selT1 0).children = l₁ ++ c :: l₂ ∧
        (getN selT1 c).is_terminal = true ∧ (getN selT1 c).reward = 1 ∧
        (∀ y ∈ l₁, ¬((getN selT1 y).is_terminal = true ∧ (getN selT1 y).reward = 1)) ∧
        selectAux (5 + 1) selT1 (some 0) = (selT1, some c)) ∧
    ((∀ c ∈ (getN selT1 0).children,
        ¬((getN selT1 c).is_terminal = true ∧ (getN selT1 c).reward = 1)) →
      ∃ j l₁ l₂,
        (getN selT1 0).children.filter (fun c => !(getN selT1 c).is_terminal) =
          l₁ ++ j :: l₂ ∧
        (∀ y ∈ l₁, uct selT1 y < uct selT1 j) ∧
        (∀ y ∈ l₂, uct selT1 y ≤ uct selT1 j) ∧
        selectAux (5 + 1) selT1 (some 0) = selectAux 5 selT1 (some j)) ∧
    (∀ c p, (getN selT1 c).parent = some p →
      uct selT1 c = if (getN selT1 c).visits = 0 then ((getN selT1 c).value : ℝ)
        else ((getN selT1 c).value : ℝ) / ((getN selT1 c).visits : ℝ) +
          Real.sqrt (2 * Real.log (((getN selT1 p).visits : ℝ)) /
            ((getN selT1 c).visits : ℝ)))) :=
  ⟨by decide, by decide,
   claim_C1_select_uct selT1 0 5 (by decide) (by decide)⟩

/-- C2: during SELECT, a node all of whose children are terminal is detached
from its own parent's children list (first occurrence removed, all other
nodes untouched) and selection moves up to the parent; the root is never
detached, and when all of the root's children are terminal the selection
returns no node. -/
theorem claim_C2_select_exhausted (t : List LNode) (i fuel : Nat)
    (hne : (getN t i).children ≠ [])
    (hall : ∀ c ∈ (getN t i).children, (getN t c).is_terminal = true) :
    (∀ p, (getN t i).parent = some p → p < t.length →
      selectAux (fuel + 1) t (some i) = selectAux fuel (detach t p i) (some p) ∧
      (getN (detach t p i) p).children = ((getN t p).children).erase i ∧
      (getN (detach t p i) p).parent = (getN t p).parent ∧
      (∀ q, q ≠ p → getN (detach t p i) q = getN t q) ∧
      (detach t p i).length = t.length) ∧
    ((getN t i).parent = none →
      selectAux (fuel + 1) t (some i) = (t, none) ∧
      select_node t i = (t, none)) := by
  have hlen : ((getN t i).children.filter (fun c => (getN t c).is_terminal)).length =
      (getN t i).children.length := by
    rw [List.filter_eq_self.mpr hall]
  constructor
  · intro p hp hplen
    refine ⟨selectAux_allTerminal_mid fuel hne hlen hp, ?_, ?_, ?_, ?_⟩
    · rw [detach, getN_set_self _ hplen]
    · rw [detach, getN_set_self _ hplen]
    · intro q hq
      exact getN_set_ne _ hq
    · exact List.length_set t p _
  · intro hp
    refine ⟨selectAux_allTerminal_root fuel hne hlen hp, ?_⟩
    show selectAux (t.length * t.length + t.length + 1) t (some i) = (t, none)
    exact selectAux_allTerminal_root _ hne hlen hp

/-- Witness for C2 on the concrete arena `selT2` (node `1` has only the
terminal child `2` and parent `0`). -/
theorem claim_C2_witness :
    (getN selT2 1).children ≠ [] ∧
    (∀ c ∈ (getN selT2 1).children, (getN selT2 c).is_terminal = true) ∧
    ((∀ p, (getN selT2 1).parent = some p → p < selT2.length →
      selectAux (5 + 1) selT2 (some 1) = selectAux 5 (detach selT2 p 1) (some p) ∧
      (getN (detach selT2 p 1) p).children = ((getN selT2 p).children).erase 1 ∧
      (getN (detach selT2 p 1) p).parent = (getN selT2 p).parent ∧
      (∀ q, q ≠ p → getN (detach selT2 p 1) q = getN selT2 q) ∧
      (detach selT2 p 1).length = selT2.length) ∧
    ((getN selT2 1).parent = none →
      selectAux (5 + 1) selT2 (some 1) = (selT2, none) ∧
      select_node selT2 1 = (selT2, none))) :=
  ⟨by decide, by decide,
   claim_C2_select_exhausted selT2 1 5 (by decide) (by decide)⟩

/-! Section: Rollout and evaluation lemmas -/

theorem get_values_aux_length (val : String → ℚ) :
    ∀ (ys : List String) (acc : List ℚ × List String),
    ((ys.foldl
      (fun (acc : List ℚ × List String) y =>
        if y ∈ acc.2 then (acc.1 ++ [0], acc.2)
        else (acc.1 ++ [val y], y :: acc.2)) acc).1).length =
      acc.1.length + ys.length := by
  intro ys
  induction ys with
  | nil => intro acc; simp
  | cons y ys ih =>
    intro acc
    rw [List.foldl_cons]
    by_cases hmem : y ∈ acc.2
    · rw [if_pos hmem, ih]; simp; omega
    · rw [if_neg hmem, ih]; simp; omega

theorem get_values_length (val : String → ℚ) (ys : List String) :
    (get_values val ys).length = ys.length := by
  rw [get_values, get_values_aux_length]
  simp

theorem foldl_max_mem_cons {α : Type} [LinearOrder α] :
    ∀ (l : List α) (x : α), l.foldl max x ∈ x :: l := by
  intro l
  induction l with
  | nil => intro x; simp
  | cons y ys ih =>
    intro x
    rw [List.foldl_cons]
    have hmem := ih (max x y)
    rcases List.mem_cons.mp hmem with heq | hmem'
    · rcases max_choice x y with h | h
      · exact List.mem_cons.mpr (Or.inl (heq.trans h))
      · exact List.mem_cons.mpr (Or.inr (List.mem_cons.mpr (Or.inl (heq.trans h))))
    · exact List.mem_cons.mpr (Or.inr (List.mem_cons.mpr (Or.inr hmem')))


theorem rolloutAux_exit (gen : Nat → List GState) (val : String → ℚ)
    (maxDepth n : Nat) (node : GState) (depth c : Nat) (rewards : List ℚ)
    (hcond : ¬(node.is_terminal = false ∧ depth < maxDepth)) :
    rolloutAux gen val maxDepth (n + 1) node depth c rewards =
      some (rewards.sum / (rewards.length : ℚ), node) := by
  rw [rolloutAux, if_neg hcond]

theorem rolloutAux_retry (gen : Nat → List GState) (val : String → ℚ)
    (maxDepth n : Nat) (node : GState) (depth c : Nat) (rewards : List ℚ)
    (hcond : node.is_terminal = false ∧ depth < maxDepth) (hgen : gen c = []) :
    rolloutAux gen val maxDepth (n + 1) node depth c rewards =
      rolloutAux gen val maxDepth n node depth (c + 1) rewards := by
  rw [rolloutAux, if_pos hcond, if_pos hgen]

theorem rolloutAux_terminal (gen : Nat → List GState) (val : String → ℚ)
    (maxDepth n : Nat) (node : GState) (depth c : Nat) (rewards : List ℚ)
    (st : GState)
    (hcond : node.is_terminal = false ∧ depth < maxDepth) (hne : gen c ≠ [])
    (hfind : (gen c).find? (fun st => st.is_terminal) = some st) :
    rolloutAux gen val maxDepth (n + 1) node depth c rewards =
      some (st.reward, st) := by
  rw [rolloutAux, if_pos hcond, if_neg hne, hfind]
  rfl

theorem rolloutAux_advance (gen : Nat → List GState) (val : String → ℚ)
    (maxDepth n : Nat) (node : GState) (depth c : Nat) (rewards : List ℚ)
    (hcond : node.is_terminal = false ∧ depth < maxDepth) (hne : gen c ≠ [])
    (hfind : (gen c).find? (fun st => st.is_terminal) = none)
    (hval : get_values val
      (((gen c).filter (fun st => !st.is_terminal)).map (fun st => st.prompt)) ≠ []) :
    rolloutAux gen val maxDepth (n + 1) node depth c rewards =
      rolloutAux gen val maxDepth n
        ((gen c).getD
          ((get_values val
            (((gen c).filter (fun st => !st.is_terminal)).map
              (fun st => st.prompt))).indexOf
            ((get_values val
              (((gen c).filter (fun st => !st.is_terminal)).map
                (fun st => st.prompt))).foldl max
              ((get_values val
                (((gen c).filter (fun st => !st.is_terminal)).map
                  (fun st => st.prompt))).headD 0)))
          default)
        (depth + 1) (c + 1)
        (if depth + 1 = maxDepth then [-1]
         else rewards ++
           [(get_values val
             (((gen c).filter (fun st => !st.is_terminal)).map
               (fun st => st.prompt))).foldl max
             ((get_values val
               (((gen c).filter (fun st => !st.is_terminal)).map
                 (fun st => st.prompt))).headD 0)]) := by
  rw [rolloutAux, if_pos hcond, if_neg hne, hfind]
  simp only [Option.elim]
  rw [if_neg hval]

theorem rolloutAux_novalues (gen : Nat → List GState) (val : String → ℚ)
    (maxDepth n : Nat) (node : GState) (depth c : Nat) (rewards : List ℚ)
    (hcond : node.is_terminal = false ∧ depth < maxDepth) (hne : gen c ≠ [])
    (hfind : (gen c).find? (fun st => st.is_terminal) = none)
    (hval : get_values val
      (((gen c).filter (fun st => !st.is_terminal)).map (fun st => st.prompt)) = []) :
    rolloutAux gen val maxDepth (n + 1) node depth c rewards = none := by
  rw [rolloutAux, if_pos hcond, if_neg hne, hfind]
  simp only [Option.elim]
  rw [if_pos hval]

theorem rolloutAux_cases (gen : Nat → List GState) (val : String → ℚ) (maxDepth : Nat) :
    ∀ (fuel : Nat) (node : GState) (depth c : Nat) (rewards : List ℚ) (r : ℚ) (s : GState),
    rolloutAux gen val maxDepth fuel node depth c rewards = some (r, s) →
    (s = node ∧ r = rewards.sum / (rewards.length : ℚ) ∧
      (node.is_terminal = true ∨ maxDepth ≤ depth)) ∨
    (s.is_terminal = true ∧ r = s.reward) ∨
    (s.is_terminal = false ∧ r = -1) := by
  intro fuel
  induction fuel with
  | zero => intro node depth c rewards r s h; exact absurd h (by simp [rolloutAux])
  | succ n ih =>
    intro node depth c rewards r s h
    by_cases hcond : node.is_terminal = false ∧ depth < maxDepth
    · by_cases hgen : gen c = []
      · rw [rolloutAux_retry gen val maxDepth n node depth c rewards hcond hgen] at h
        exact ih _ _ _ _ _ _ h
      · cases hfind : (gen c).find? (fun st => st.is_terminal) with
        | some st =>
          rw [rolloutAux_terminal gen val maxDepth n node depth c rewards st
            hcond hgen hfind] at h
          simp only [Option.some_inj, Prod.mk.injEq] at h
          obtain ⟨hr, hs⟩ := h
          subst hs
          exact Or.inr (Or.inl ⟨List.find?_some hfind, hr.symm⟩)
        | none =>
          have hallnt : ∀ st ∈ gen c, st.is_terminal = false := by
            intro st hst
            have := List.find?_eq_none.mp hfind st hst
            simpa using this
          have hfilter : (gen c).filter (fun st => !st.is_terminal) = gen c := by
            refine List.filter_eq_self.mpr ?_
            intro st hst
            simp [hallnt st hst]
          by_cases hval : get_values val
              (((gen c).filter (fun st => !st.is_terminal)).map
                (fun st => st.prompt)) = []
          · rw [rolloutAux_novalues gen val maxDepth n node depth c rewards
              hcond hgen hfind hval] at h
            exact absurd h (by simp)
          · rw [rolloutAux_advance gen val maxDepth n node depth c rewards
              hcond hgen hfind hval] at h
            set V := get_values val
              (((gen c).filter (fun st => !st.is_terminal)).map
                (fun st => st.prompt)) with hV
            have hlenV : V.length = (gen c).length := by
              rw [hV, get_values_length, hfilter, List.length_map]
            have hm : V.foldl max (V.headD 0) ∈ V := by
              cases hv : V with
              | nil => exact absurd hv hval
              | cons v vs =>
                have hmm := foldl_max_mem_cons (v :: vs) ((v :: vs).headD 0)
                simp only [List.headD_cons] at hmm
                rw [List.headD_cons]
                rcases List.mem_cons.mp hmm with heq | hmem
                · rw [heq]; exact List.mem_cons_self v vs
                · exact hmem
            have hidx : V.indexOf (V.foldl max (V.headD 0)) < (gen c).length := by
              rw [← hlenV]
              exact List.indexOf_lt_length.mpr hm
            have hmemnode : (gen c).getD (V.indexOf (V.foldl max (V.headD 0)))
                default ∈ gen c := by
              rw [List.getD_eq_getElem _ _ hidx]
              exact List.getElem_mem _
            have hnodent : ((gen c).getD (V.indexOf (V.foldl max (V.headD 0)))
                default).is_terminal = false := hallnt _ hmemnode
            rcases ih _ _ _ _ _ _ h with ⟨hseq, hr, hterm⟩ | hmid | hdl
            · right; right
              have hdep : maxDepth ≤ depth + 1 := by
                rcases hterm with hterm | hterm
                · rw [hnodent] at hterm
                  exact absurd hterm (by simp)
                · exact hterm
              have hdeq : depth + 1 = maxDepth :=
                Nat.le_antisymm (Nat.succ_le_of_lt hcond.2) hdep
              rw [if_pos hdeq] at hr
              rw [hseq]
              refine ⟨hnodent, ?_⟩
              rw [hr]
              norm_num
            · exact Or.inr (Or.inl hmid)
            · exact Or.inr (Or.inr hdl)
    · rw [rolloutAux_exit gen val maxDepth n node depth c rewards hcond] at h
      simp only [Option.some_inj, Prod.mk.injEq] at h
      obtain ⟨hr, hs⟩ := h
      left
      refine ⟨hs.symm, hr.symm, ?_⟩
      rcases Decidable.not_and_iff_or_not.mp hcond with hterm | hdep
      · left
        cases hbool : node.is_terminal with
        | false => exact absurd hbool hterm
        | true => rfl
      · right; exact Nat.le_of_not_lt hdep

/-! Section: Claim C4: rollout -/

/-- C4: for every starting node, `rollout` returns the terminal reward
(together with that node) if a terminal node is produced mid-rollout, returns
a reward forced to `-1` when it reaches the depth limit without terminating,
and otherwise — which the code reaches only when no rollout step ran at all,
because the node was already terminal or already at the limit — returns the
average of the (then empty) per-step maximum child values, `0`, seeded as
`sum([0])/1`; the node returned is the deepest one reached. -/
theorem claim_C4_rollout_reward (gen : Nat → List GState) (val : String → ℚ)
    (maxDepth fuel : Nat) (node : GState) (depth : Nat) (r : ℚ) (s : GState)
    (h : rollout gen val maxDepth fuel node depth = some (r, s)) :
    (s = node ∧ r = 0 ∧ (node.is_terminal = true ∨ maxDepth ≤ depth)) ∨
    (s.is_terminal = true ∧ r = s.reward) ∨
    (s.is_terminal = false ∧ r = -1) := by
  rcases rolloutAux_cases gen val maxDepth fuel node depth 0 [0] r s h with
    ⟨hseq, hr, hterm⟩ | hmid | hdl
  · left
    refine ⟨hseq, ?_, hterm⟩
    rw [hr]
    norm_num
  · exact Or.inr (Or.inl hmid)
  · exact Or.inr (Or.inr hdl)

/-- Witness for C4: a concrete rollout whose first generation batch contains
a terminal state of reward 1, which is returned with its reward. -/
theorem claim_C4_witness :
    rollout (fun _ => [⟨"p", true, 1⟩]) (fun _ => 0) 4 5 ⟨"s", false, 0⟩ 0 =
      some (1, ⟨"p", true, 1⟩) ∧
    (((⟨"p", true, 1⟩ : GState) = ⟨"s", false, 0⟩ ∧ (1 : ℚ) = 0 ∧
       ((⟨"s", false, 0⟩ : GState).is_terminal = true ∨ 4 ≤ 0)) ∨
     ((⟨"p", true, 1⟩ : GState).is_terminal = true ∧
       (1 : ℚ) = (⟨"p", true, 1⟩ : GState).reward) ∨
     ((⟨"p", true, 1⟩ : GState).is_terminal = false ∧ (1 : ℚ) = -1)) :=
  ⟨by decide,
   claim_C4_rollout_reward (fun _ => [⟨"p", true, 1⟩]) (fun _ => 0) 4 5
     ⟨"s", false, 0⟩ 0 1 ⟨"p", true, 1⟩ (by decide)⟩

/-! Section: Claim C5: evaluation alignment -/

/-- C5 fails on the code: on `selT1`, whose root has the terminal reward-1
child `1` followed by the non-terminal child `2`, `evaluate_node` with a
value oracle returning 7 writes the LLM-derived value 7 into the *terminal*
child and 0 into the *non-terminal* child, because the vote list (one vote
per non-terminal child) is padded with zeros at the end and then assigned to
all children positionally. -/
theorem claim_C5_evaluate_misalignment :
    (getN selT1 0).children = [1, 2] ∧
    (getN selT1 1).is_terminal = true ∧ (getN selT1 2).is_terminal = false ∧
    (getN (evaluate_node (fun _ => 7) selT1 0).1 1).value = 7 ∧
    (getN (evaluate_node (fun _ => 7) selT1 0).1 2).value = 0 := by decide

/-! Section: Claim C9: empty expansion -/

/-- C9 fails on the code: a persistently empty generation does not make the
rollout treat the node as a dead end contributing zero reward — the retry
loop never terminates (every fuel bound is exhausted; here fuel 100). -/
theorem claim_C9_counterexample :
    rollout (fun _ => []) (fun _ => 0) 4 100 ⟨"", false, 0⟩ 0 = none := by
  decide

/-- C9 amended: the evaluate phase does operate on an empty child set,
returning the unchanged arena and value 0 with no oracle call; the rollout
(simulate) phase instead *retries* generation — an empty batch merely
advances to the next generation call, and a generator that always returns
zero children makes the rollout loop forever (`none` at every fuel). -/
theorem claim_C9_empty_expansion_amended :
    (∀ (val : String → ℚ) (t : List LNode) (i : Nat), (getN t i).children = [] →
      evaluate_node val t i = (t, 0)) ∧
    (∀ (gen : Nat → List GState) (val : String → ℚ) (maxDepth fuel : Nat)
      (node : GState) (depth c : Nat) (rewards : List ℚ),
      node.is_terminal = false → depth < maxDepth → gen c = [] →
      rolloutAux gen val maxDepth (fuel + 1) node depth c rewards =
        rolloutAux gen val maxDepth fuel node depth (c + 1) rewards) ∧
    (∀ (val : String → ℚ) (maxDepth fuel : Nat) (node : GState) (depth c : Nat)
      (rewards : List ℚ), node.is_terminal = false → depth < maxDepth →
      rolloutAux (fun _ => []) val maxDepth fuel node depth c rewards = none) := by
  refine ⟨?_, ?_, ?_⟩
  · intro val t i hc
    simp only [evaluate_node, hc]
    rfl
  · intro gen val maxDepth fuel node depth c rewards ht hd hgen
    exact rolloutAux_retry gen val maxDepth fuel node depth c rewards ⟨ht, hd⟩ hgen
  · intro val maxDepth fuel
    induction fuel with
    | zero => intro node depth c rewards _ _; rfl
    | succ n ih =>
      intro node depth c rewards ht hd
      rw [rolloutAux_retry _ _ _ _ _ _ _ _ ⟨ht, hd⟩ rfl]
      exact ih node depth (c + 1) rewards ht hd

/-- Witness for the amended C9: the empty-children evaluation, one retry
step, and the divergence of a persistently empty generator, all on concrete
inputs. -/
theorem claim_C9_witness :
    ((getN bpT 1).children = [] ∧ evaluate_node (fun _ => 7) bpT 1 = (bpT, 0)) ∧
    ((⟨"", false, 0⟩ : GState).is_terminal = false ∧ (0 : Nat) < 4 ∧
      (fun _ : Nat => ([] : List GState)) 0 = [] ∧
      rolloutAux (fun _ => []) (fun _ => 0) 4 (2 + 1) ⟨"", false, 0⟩ 0 0 [0] =
        rolloutAux (fun _ => []) (fun _ => 0) 4 2 ⟨"", false, 0⟩ 0 1 [0]) ∧
    rolloutAux (fun _ => []) (fun _ => 0) 4 9 ⟨"", false, 0⟩ 0 0 [0] = none :=
  ⟨⟨by decide,
    claim_C9_empty_expansion_amended.1 (fun _ => 7) bpT 1 (by decide)⟩,
   ⟨rfl, by decide, rfl,
    claim_C9_empty_expansion_amended.2.1 (fun _ => []) (fun _ => 0) 4 2
      ⟨"", false, 0⟩ 0 0 [0] rfl (by decide) rfl⟩,
   claim_C9_empty_expansion_amended.2.2 (fun _ => 0) 4 9 ⟨"", false, 0⟩ 0 0 [0]
     rfl (by decide)⟩

/-! Section: Claim C8: unique trajectories -/

theorem gutAux_spec :
    ∀ (failed : List FailedTraj) (num : Nat) (seen : List String)
      (acc : List String), acc.length < num →
    gutAux num failed seen acc =
      acc ++ ((firstSeenAux failed seen).map
        (fun tr => generate_prompt_nodes tr.trajectory)).take (num - acc.length) := by
  intro failed
  induction failed with
  | nil => intro num seen acc _; simp [gutAux, firstSeenAux]
  | cons tr rest ih =>
    intro num seen acc hacc
    by_cases hd : tr.final_answer ∈ seen
    · rw [gutAux, if_pos hd, if_neg (Nat.not_le_of_lt hacc), firstSeenAux, if_pos hd]
      exact ih num seen acc hacc
    · rw [gutAux, if_neg hd, firstSeenAux, if_neg hd]
      by_cases hbreak : num ≤ (acc ++ [generate_prompt_nodes tr.trajectory]).length
      · rw [if_pos hbreak]
        have hlen : (acc ++ [generate_prompt_nodes tr.trajectory]).length =
            acc.length + 1 := by simp
        have hnum : num = acc.length + 1 := by omega
        have htake : num - acc.length = 1 := by omega
        rw [List.map_cons, htake]
        simp
      · rw [if_neg hbreak]
        have hacc' : (acc ++ [generate_prompt_nodes tr.trajectory]).length < num := by
          simp at hbreak ⊢
          omega
        rw [ih num (tr.final_answer :: seen) _ hacc']
        have hlen : (acc ++ [generate_prompt_nodes tr.trajectory]).length =
            acc.length + 1 := by simp
        rw [hlen, List.map_cons]
        have htake : num - acc.length = (num - (acc.length + 1)) + 1 := by
          simp at hbreak
          omega
        rw [htake, List.take_succ_cons, List.append_assoc]
        rfl

/-- C8 amended: for every bound `num ≥ 1`, `get_unique_trajectories` returns
at most `num` entries, namely the renderings of the failed trajectories
deduplicated by `final_answer` in first-seen order, truncated to `num`
(with `num = 0` the break is only checked after the first append, so one
entry is returned — see the counterexample). -/
theorem claim_C8_unique_trajectories (failed : List FailedTraj) (num : Nat)
    (h : 1 ≤ num) :
    (get_unique_trajectories failed num).length ≤ num ∧
    get_unique_trajectories failed num =
      ((firstSeenDedup failed).map
        (fun tr => generate_prompt_nodes tr.trajectory)).take num := by
  have hspec := gutAux_spec failed num [] [] (by simpa using h)
  rw [get_unique_trajectories, hspec]
  simp only [List.nil_append, List.length_nil, Nat.sub_zero, firstSeenDedup]
  exact ⟨by simp, trivial⟩

/-- C8 as stated is false at bound 0: the break is checked only after an
append, so a single failed trajectory yields one entry, not at most zero. -/
theorem claim_C8_counterexample :
    ¬((get_unique_trajectories [⟨[], "A"⟩] 0).length ≤ 0) := by decide

/-- Witness for the amended C8 on the example of the claim: final answers
`[A, A, B, C, B, D]` with bound 5 give the 4 deduplicated entries in
first-seen order, and bound 2 gives the first 2. -/
theorem claim_C8_witness :
    (1 ≤ 5 ∧
      ((get_unique_trajectories
        [⟨[], "A"⟩, ⟨[], "A"⟩, ⟨[], "B"⟩, ⟨[], "C"⟩, ⟨[], "B"⟩, ⟨[], "D"⟩]
        5).length ≤ 5 ∧
       get_unique_trajectories
        [⟨[], "A"⟩, ⟨[], "A"⟩, ⟨[], "B"⟩, ⟨[], "C"⟩, ⟨[], "B"⟩, ⟨[], "D"⟩] 5 =
        ((firstSeenDedup
          [⟨[], "A"⟩, ⟨[], "A"⟩, ⟨[], "B"⟩, ⟨[], "C"⟩, ⟨[], "B"⟩, ⟨[], "D"⟩]).map
          (fun tr => generate_prompt_nodes tr.trajectory)).take 5)) ∧
    (get_unique_trajectories
      [⟨[], "A"⟩, ⟨[], "A"⟩, ⟨[], "B"⟩, ⟨[], "C"⟩, ⟨[], "B"⟩, ⟨[], "D"⟩]
      5).length = 4 ∧
    (get_unique_trajectories
      [⟨[], "A"⟩, ⟨[], "A"⟩, ⟨[], "B"⟩, ⟨[], "C"⟩, ⟨[], "B"⟩, ⟨[], "D"⟩]
      2).length = 2 :=
  ⟨⟨by decide,
    claim_C8_unique_trajectories
      [⟨[], "A"⟩, ⟨[], "A"⟩, ⟨[], "B"⟩, ⟨[], "C"⟩, ⟨[], "B"⟩, ⟨[], "D"⟩] 5
      (by decide)⟩,
   by decide, by decide⟩

/-! Section: Claim C6 and C7: deduplicated child generation -/

theorem gcnAux_spec (exec? : String → String × String) (em : String → String → Bool)
    (key pt : String) (dep : Nat) :
    ∀ (draws : List MathDraw) (seen : List String) (cs : List MathNode)
      (fs : List MathFailedRec) (log : List (String × String)),
    gcnAux exec? em key pt dep draws seen cs fs log =
      (cs ++ gcnChildrenSpec exec? em key draws seen,
       fs ++ (firstOccAux draws seen).filterMap (failedRecOf exec? em key pt dep),
       log ++ (firstOccAux draws seen).map (fun d => (d.action_type, d.query))) := by
  intro draws
  induction draws with
  | nil => intro seen cs fs log; simp [gcnAux, gcnChildrenSpec, firstOccAux]
  | cons d rest ih =>
    intro seen cs fs log
    by_cases hd : drawKey d ∈ seen
    · rw [gcnAux, if_pos hd, ih, gcnChildrenSpec, if_pos hd, firstOccAux, if_pos hd]
      simp [List.append_assoc]
    · rw [gcnAux, if_neg hd, gcnChildrenSpec, if_neg hd, firstOccAux, if_neg hd]
      simp only []
      rw [ih]
      rw [List.filterMap_cons, List.map_cons]
      by_cases hterm : (mkRealNode exec? em key d).is_terminal = true ∧
          (mkRealNode exec? em key d).reward = 0
      · rw [if_pos hterm]
        have hrec : failedRecOf exec? em key pt dep d =
            some ⟨render_math_child pt (dep + 1) (mkRealNode exec? em key d),
              d.query⟩ := by
          simp only [failedRecOf]
          rw [if_pos hterm]
        rw [hrec]
        simp [List.append_assoc]
      · rw [if_neg hterm]
        have hrec : failedRecOf exec? em key pt dep d = none := by
          simp only [failedRecOf]
          rw [if_neg hterm]
        rw [hrec]
        simp [List.append_assoc]

theorem gcnChildrenSpec_length (exec? : String → String × String)
    (em : String → String → Bool) (key : String) :
    ∀ (draws : List MathDraw) (seen : List String),
    (gcnChildrenSpec exec? em key draws seen).length = draws.length := by
  intro draws
  induction draws with
  | nil => intro seen; rfl
  | cons d rest ih =>
    intro seen
    rw [gcnChildrenSpec]
    by_cases hd : drawKey d ∈ seen
    · rw [if_pos hd]; simp [ih]
    · rw [if_neg hd]; simp [ih]

theorem gcnChildrenSpec_getD (exec? : String → String × String)
    (em : String → String → Bool) (key : String) :
    ∀ (draws : List MathDraw) (seen : List String) (j : Nat), j < draws.length →
    (gcnChildrenSpec exec? em key draws seen).getD j default =
      if drawKey (draws.getD j default) ∈ seen ∨
         (∃ i, i < j ∧ drawKey (draws.getD i default) =
           drawKey (draws.getD j default))
      then mkBlankNode (draws.getD j default)
      else mkRealNode exec? em key (draws.getD j default) := by
  intro draws
  induction draws with
  | nil => intro seen j hj; simp at hj
  | cons d rest ih =>
    intro seen j hj
    rw [gcnChildrenSpec]
    cases j with
    | zero =>
      simp only [List.getD_cons_zero]
      by_cases hd : drawKey d ∈ seen
      · rw [if_pos hd, if_pos (Or.inl hd), List.getD_cons_zero]
      · rw [if_neg hd, if_neg ?_, List.getD_cons_zero]
        rintro (h | ⟨i, hi, _⟩)
        · exact hd h
        · omega
    | succ j' =>
      have hj' : j' < rest.length := by simpa using hj
      simp only [List.getD_cons_succ]
      by_cases hd : drawKey d ∈ seen
      · rw [if_pos hd, List.getD_cons_succ, ih seen j' hj']
        have hiff : (drawKey (rest.getD j' default) ∈ seen ∨
            (∃ i, i < j' ∧ drawKey (rest.getD i default) =
              drawKey (rest.getD j' default))) ↔
            (drawKey (rest.getD j' default) ∈ seen ∨
            (∃ i, i < j' + 1 ∧ drawKey ((d :: rest).getD i default) =
              drawKey (rest.getD j' default))) := by
          constructor
          · rintro (h | ⟨i, hi, heq⟩)
            · exact Or.inl h
            · exact Or.inr ⟨i + 1, by omega, by simpa using heq⟩
          · rintro (h | ⟨i, hi, heq⟩)
            · exact Or.inl h
            · cases i with
              | zero =>
                simp only [List.getD_cons_zero] at heq
                rw [← heq]
                exact Or.inl hd
              | succ i' =>
                simp only [List.getD_cons_succ] at heq
                exact Or.inr ⟨i', by omega, heq⟩
        rw [if_congr hiff rfl rfl]
      · rw [if_neg hd, List.getD_cons_succ, ih (drawKey d :: seen) j' hj']
        have hiff : (drawKey (rest.getD j' default) ∈ drawKey d :: seen ∨
            (∃ i, i < j' ∧ drawKey (rest.getD i default) =
              drawKey (rest.getD j' default))) ↔
            (drawKey (rest.getD j' default) ∈ seen ∨
            (∃ i, i < j' + 1 ∧ drawKey ((d :: rest).getD i default) =
              drawKey (rest.getD j' default))) := by
          constructor
          · rintro (h | ⟨i, hi, heq⟩)
            · rcases List.mem_cons.mp h with h | h
              · exact Or.inr ⟨0, by omega, by simpa using h.symm⟩
              · exact Or.inl h
            · exact Or.inr ⟨i + 1, by omega, by simpa using heq⟩
          · rintro (h | ⟨i, hi, heq⟩)
            · exact Or.inl (List.mem_cons.mpr (Or.inr h))
            · cases i with
              | zero =>
                simp only [List.getD_cons_zero] at heq
                exact Or.inl (List.mem_cons.mpr (Or.inl heq.symm))
              | succ i' =>
                simp only [List.getD_cons_succ] at heq
                exact Or.inr ⟨i', by omega, heq⟩
        rw [if_congr hiff rfl rfl]

/-- C6: within one expansion call, a draw repeating an earlier draw's
deduplication key `thought::action_type::query` yields a blank degenerate
child (still appended, so the children count equals the number of draws),
while the observation oracle is called exactly once per distinct key (in
first-occurrence order) and failed-trajectory records are appended only for
first occurrences. -/
theorem claim_C6_dedup_expansion (exec? : String → String × String)
    (em : String → String → Bool) (key pt : String) (dep : Nat)
    (draws : List MathDraw) (failed₀ : List MathFailedRec) :
    (generate_children_nodes exec? em key pt dep draws failed₀).1.length =
      draws.length ∧
    (generate_children_nodes exec? em key pt dep draws failed₀).2.2 =
      (firstOcc draws).map (fun d => (d.action_type, d.query)) ∧
    (generate_children_nodes exec? em key pt dep draws failed₀).2.1 =
      failed₀ ++ (firstOcc draws).filterMap (failedRecOf exec? em key pt dep) ∧
    (∀ j, j < draws.length →
      (generate_children_nodes exec? em key pt dep draws failed₀).1.getD j default =
        if IsDupDraw draws j then mkBlankNode (draws.getD j default)
        else mkRealNode exec? em key (draws.getD j default)) := by
  have hspec := gcnAux_spec exec? em key pt dep draws [] [] failed₀ []
  simp only [generate_children_nodes, hspec, List.nil_append]
  refine ⟨gcnChildrenSpec_length exec? em key draws [], rfl, rfl, ?_⟩
  intro j hj
  rw [gcnChildrenSpec_getD exec? em key draws [] j hj]
  have hiff : (drawKey (draws.getD j default) ∈ ([] : List String) ∨
      (∃ i, i < j ∧ drawKey (draws.getD i default) =
        drawKey (draws.getD j default))) ↔ IsDupDraw draws j := by
    rw [IsDupDraw]
    simp
  rw [if_congr hiff rfl rfl]

/-- Witness for C6 on a concrete expansion: draws `[d0, d1, d0]` where the
third draw repeats the first key, with a `Finish` draw whose answer check
fails (a terminal reward-0 child). -/
theorem claim_C6_witness :
    ((generate_children_nodes (fun q => (q, "Done")) (fun a b => a == b) "7" "" 0
        [⟨"tA", "Calculate", "1+1"⟩, ⟨"tB", "Finish", "8"⟩,
         ⟨"tA", "Calculate", "1+1"⟩] []).1.length = 3 ∧
     (generate_children_nodes (fun q => (q, "Done")) (fun a b => a == b) "7" "" 0
        [⟨"tA", "Calculate", "1+1"⟩, ⟨"tB", "Finish", "8"⟩,
         ⟨"tA", "Calculate", "1+1"⟩] []).2.2 =
       (firstOcc [⟨"tA", "Calculate", "1+1"⟩, ⟨"tB", "Finish", "8"⟩,
         ⟨"tA", "Calculate", "1+1"⟩]).map (fun d => (d.action_type, d.query)) ∧
     (generate_children_nodes (fun q => (q, "Done")) (fun a b => a == b) "7" "" 0
        [⟨"tA", "Calculate", "1+1"⟩, ⟨"tB", "Finish", "8"⟩,
         ⟨"tA", "Calculate", "1+1"⟩] []).2.1 =
       [] ++ (firstOcc [⟨"tA", "Calculate", "1+1"⟩, ⟨"tB", "Finish", "8"⟩,
         ⟨"tA", "Calculate", "1+1"⟩]).filterMap
           (failedRecOf (fun q => (q, "Done")) (fun a b => a == b) "7" "" 0) ∧
     (∀ j, j < 3 →
       (generate_children_nodes (fun q => (q, "Done")) (fun a b => a == b) "7" "" 0
          [⟨"tA", "Calculate", "1+1"⟩, ⟨"tB", "Finish", "8"⟩,
           ⟨"tA", "Calculate", "1+1"⟩] []).1.getD j default =
         if IsDupDraw [⟨"tA", "Calculate", "1+1"⟩, ⟨"tB", "Finish", "8"⟩,
             ⟨"tA", "Calculate", "1+1"⟩] j then
           mkBlankNode ([⟨"tA", "Calculate", "1+1"⟩, ⟨"tB", "Finish", "8"⟩,
             ⟨"tA", "Calculate", "1+1"⟩].getD j default)
         else mkRealNode (fun q => (q, "Done")) (fun a b => a == b) "7"
           ([⟨"tA", "Calculate", "1+1"⟩, ⟨"tB", "Finish", "8"⟩,
             ⟨"tA", "Calculate", "1+1"⟩].getD j default))) ∧
    (2 : Nat) < 3 ∧ IsDupDraw [⟨"tA", "Calculate", "1+1"⟩, ⟨"tB", "Finish", "8"⟩,
      ⟨"tA", "Calculate", "1+1"⟩] 2 :=
  ⟨claim_C6_dedup_expansion (fun q => (q, "Done")) (fun a b => a == b) "7" "" 0
    [⟨"tA", "Calculate", "1+1"⟩, ⟨"tB", "Finish", "8"⟩,
     ⟨"tA", "Calculate", "1+1"⟩] [],
   by decide, by decide⟩

/-- C7: the failed-trajectory list after an expansion is the input list
(existing records never mutated) extended by exactly one record per
first-occurrence draw whose real child is terminal with reward 0, consisting
of the rendered root-to-child trajectory and the raw query as
`final_answer`; blank degenerate children are never terminal, so duplicates
never append a record. -/
theorem claim_C7_failed_record_iff (exec? : String → String × String)
    (em : String → String → Bool) (key pt : String) (dep : Nat)
    (draws : List MathDraw) (failed₀ : List MathFailedRec) :
    (generate_children_nodes exec? em key pt dep draws failed₀).2.1 =
      failed₀ ++ (firstOcc draws).filterMap (fun d =>
        if (mkRealNode exec? em key d).is_terminal = true ∧
            (mkRealNode exec? em key d).reward = 0 then
          some ⟨render_math_child pt (dep + 1) (mkRealNode exec? em key d),
            d.query⟩
        else none) ∧
    (∀ d : MathDraw, (mkBlankNode d).is_terminal = false ∧
      (mkBlankNode d).reward = 0) := by
  constructor
  · have hspec := gcnAux_spec exec? em key pt dep draws [] [] failed₀ []
    simp only [generate_children_nodes, hspec]
    rfl
  · intro d
    exact ⟨rfl, rfl⟩
